import Mathlib

/-!
Verification development for the modular exponentiation core of the prst
primality-testing program (source file src/exp.cpp).

The arithmetic provider of the program computes products and squares of
residues modulo a fixed modulus N.  We embed residues as natural numbers
and every backend multiplication as multiplication followed by reduction
modulo N.  Exponents (the Giant type of the source) are embedded as
natural numbers with bitlen and bit given by Nat.size and Nat.testBit.
Loops that walk the exponent from the most significant bit down are
embedded as recursion on the number of unprocessed low bits, so that the
iteration processing source bit index i is the call at counter i + 1.
-/

/-- Helper for bitlen: structural recursion on a fuel counter that bounds
the number of halvings, so that the function evaluates inside the kernel. -/
def bitlenAux : Nat → Nat → Nat
  | _, 0 => 0
  | n, fuel + 1 => if n = 0 then 0 else bitlenAux (n / 2) fuel + 1

/-- Giant.bitlen: number of bits of the exponent. -/
def bitlen (e : Nat) : Nat := bitlenAux e e

theorem bitlenAux_zero (fuel : Nat) : bitlenAux 0 fuel = 0 := by
  cases fuel <;> simp [bitlenAux]

theorem bitlenAux_spec :
    ∀ fuel n, n ≤ fuel →
      n < 2 ^ bitlenAux n fuel ∧ (1 ≤ n → 2 ^ (bitlenAux n fuel - 1) ≤ n) := by
  intro fuel
  induction fuel with
  | zero =>
    intro n hn
    interval_cases n
    simp [bitlenAux]
  | succ fuel ih =>
    intro n hn
    by_cases h0 : n = 0
    · subst h0
      simp [bitlenAux_zero]
    · have h1 : 1 ≤ n := by omega
      have hdiv : n / 2 ≤ fuel := by omega
      obtain ⟨ihlt, ihle⟩ := ih (n / 2) hdiv
      rw [show bitlenAux n (fuel + 1) = bitlenAux (n / 2) fuel + 1 by
        simp [bitlenAux, h0]]
      set k := bitlenAux (n / 2) fuel with hk
      constructor
      · have : (2 : Nat) ^ (k + 1) = 2 * 2 ^ k := by ring
        omega
      · intro _
        by_cases h2 : n / 2 = 0
        · have hk0 : k = 0 := by rw [hk, h2, bitlenAux_zero]
          rw [hk0]
          simpa using h1
        · have hk1 : 1 ≤ k := by
            rcases Nat.eq_zero_or_pos k with hz | hp
            · rw [hz] at ihlt
              omega
            · exact hp
          have hle := ihle (by omega)
          have hsplit : (2 : Nat) ^ k = 2 * 2 ^ (k - 1) := by
            conv_lhs => rw [show k = (k - 1) + 1 by omega]
            ring
          simp only [Nat.add_sub_cancel]
          omega

theorem bitlen_lt (n : Nat) : n < 2 ^ bitlen n :=
  (bitlenAux_spec n n le_rfl).1

theorem two_pow_bitlen_pred_le {n : Nat} (h : 1 ≤ n) : 2 ^ (bitlen n - 1) ≤ n :=
  (bitlenAux_spec n n le_rfl).2 h

theorem bitlen_pos {n : Nat} (h : 1 ≤ n) : 1 ≤ bitlen n := by
  rcases Nat.eq_zero_or_pos (bitlen n) with hz | hp
  · have := bitlen_lt n
    rw [hz] at this
    omega
  · exact hp

/-- Loop body of FastExp::execute.  The counter p plays the role of
len - i of the source loop: the source iteration i processes bit
len - i - 1 = p - 1, squares X and fuses a multiplication by the small
constant x0 into the squaring when that bit is set. -/
def fastExpLoop (N x0 e : Nat) (X : Nat) : Nat → Nat
  | 0 => X
  | p + 1 => fastExpLoop N x0 e (if e.testBit p then X * X * x0 % N else X * X % N) p

/-- FastExp::execute on a fresh state: i = 0, X = x0, len = bitlen(exp) - 1. -/
def FastExp.execute (N x0 e : Nat) : Nat :=
  fastExpLoop N x0 e (x0 % N) (bitlen e - 1)

/-- FastExp::execute resumed from a saved state (i, X): the remaining
iterations process bits len - i - 1 down to 0. -/
def FastExp.executeFrom (N x0 e i X : Nat) : Nat :=
  fastExpLoop N x0 e X (bitlen e - 1 - i)

/-- FastExp::execute including the state branch: a missing state starts a
fresh run from iteration 0 with X = x0. -/
def FastExp.executeOpt (N x0 e : Nat) (st : Option (Nat × Nat)) : Option Nat :=
  match st with
  | none => some (FastExp.execute N x0 e)
  | some (i, X) => some (FastExp.executeFrom N x0 e i X)

/-- Loop body of SlowExp::execute: square X, then multiply by the residue
X0 when the current exponent bit is set. -/
def slowExpLoop (N X0 e : Nat) (X : Nat) : Nat → Nat
  | 0 => X
  | p + 1 => slowExpLoop N X0 e (if e.testBit p then X * X % N * X0 % N else X * X % N) p

/-- SlowExp::execute on a fresh state: X0 is stored as a residue, i = 0,
X = X0, len = bitlen(exp) - 1. -/
def SlowExp.execute (N X0 e : Nat) : Nat :=
  slowExpLoop N (X0 % N) e (X0 % N) (bitlen e - 1)

/-- SlowExp::execute resumed from a saved state (i, X). -/
def SlowExp.executeFrom (N X0 e i X : Nat) : Nat :=
  slowExpLoop N (X0 % N) e X (bitlen e - 1 - i)

/-- SlowExp::execute including the state branch: a missing state starts a
fresh run from iteration 0 with X = X0. -/
def SlowExp.executeOpt (N X0 e : Nat) (st : Option (Nat × Nat)) : Option Nat :=
  match st with
  | none => some (SlowExp.execute N X0 e)
  | some (i, X) => some (SlowExp.executeFrom N X0 e i X)

theorem shiftRight_of_testBit_true {e p : Nat} (h : e.testBit p = true) :
    e >>> p = 2 * (e >>> (p + 1)) + 1 := by
  have hd : e >>> (p + 1) = e >>> p / 2 := Nat.shiftRight_succ e p
  have hm : e / 2 ^ p % 2 = 1 := by
    have h2 := @Nat.testBit_to_div_mod p e
    rw [h] at h2
    exact of_decide_eq_true h2.symm
  rw [Nat.shiftRight_eq_div_pow] at hd ⊢
  omega

theorem shiftRight_of_testBit_false {e p : Nat} (h : e.testBit p = false) :
    e >>> p = 2 * (e >>> (p + 1)) := by
  have hd : e >>> (p + 1) = e >>> p / 2 := Nat.shiftRight_succ e p
  have hm : e / 2 ^ p % 2 ≠ 1 := by
    have h2 := @Nat.testBit_to_div_mod p e
    rw [h] at h2
    exact of_decide_eq_false h2.symm
  rw [Nat.shiftRight_eq_div_pow] at hd ⊢
  omega

theorem sq_mod (N x : Nat) : x % N * (x % N) % N = x * x % N := by
  conv_rhs => rw [Nat.mul_mod]

theorem sq_mul_mod (N x c : Nat) : x % N * (x % N) * c % N = x * x * c % N := by
  conv_rhs => rw [Nat.mul_mod, Nat.mul_mod x x]
  rw [Nat.mul_mod]

/-- Invariant of the FastExp loop: if X holds x0 to the power of the
already-processed high bits of e, the loop returns x0 ^ e mod N. -/
theorem fastExpLoop_inv (N x0 e : Nat) :
    ∀ p X, X = x0 ^ (e >>> p) % N → fastExpLoop N x0 e X p = x0 ^ e % N := by
  intro p
  induction p with
  | zero =>
    intro X hX
    simpa [fastExpLoop] using hX
  | succ p ih =>
    intro X hX
    rw [fastExpLoop]
    apply ih
    subst hX
    cases hbit : e.testBit p with
    | false =>
      rw [if_neg (by simp [hbit]), shiftRight_of_testBit_false hbit, sq_mod]
      congr 1
      ring
    | true =>
      rw [if_pos (by simp [hbit]), shiftRight_of_testBit_true hbit, sq_mul_mod]
      congr 1
      ring

/-- Top bit of a positive number: shifting by bitlen - 1 leaves exactly 1. -/
theorem shiftRight_bitlen_pred {e : Nat} (he : 1 ≤ e) :
    e >>> (bitlen e - 1) = 1 := by
  have hpos : 1 ≤ bitlen e := bitlen_pos he
  have hlow : 2 ^ (bitlen e - 1) ≤ e := two_pow_bitlen_pred_le he
  have hhigh : e < 2 ^ bitlen e := bitlen_lt e
  have hsz : bitlen e = (bitlen e - 1) + 1 := by omega
  rw [Nat.shiftRight_eq_div_pow]
  apply Nat.div_eq_of_lt_le (by simpa using hlow)
  rw [hsz] at hhigh
  calc e < 2 ^ ((bitlen e - 1) + 1) := hhigh
    _ = (1 + 1) * 2 ^ (bitlen e - 1) := by ring

theorem testBit_bitlen_pred {e : Nat} (he : 1 ≤ e) :
    e.testBit (bitlen e - 1) = true := by
  rw [Nat.testBit_to_div_mod, ← Nat.shiftRight_eq_div_pow, shiftRight_bitlen_pred he]
  decide

/-- FastExp computes the x0-th power: for every positive exponent,
the final residue is x0 ^ e mod N. -/
theorem fastExp_execute_pow (N x0 e : Nat) (he : 1 ≤ e) :
    FastExp.execute N x0 e = x0 ^ e % N := by
  unfold FastExp.execute
  apply fastExpLoop_inv
  rw [shiftRight_bitlen_pred he, pow_one]

/-- Invariant of the SlowExp loop, identical skeleton to FastExp but with
an explicit multiplication by the reduced base. -/
theorem slowExpLoop_inv (N X0 e : Nat) :
    ∀ p X, X = X0 ^ (e >>> p) % N → slowExpLoop N (X0 % N) e X p = X0 ^ e % N := by
  intro p
  induction p with
  | zero =>
    intro X hX
    simpa [slowExpLoop] using hX
  | succ p ih =>
    intro X hX
    rw [slowExpLoop]
    apply ih
    subst hX
    cases hbit : e.testBit p with
    | false =>
      rw [if_neg (by simp [hbit]), shiftRight_of_testBit_false hbit, sq_mod]
      congr 1
      ring
    | true =>
      rw [if_pos (by simp [hbit]), shiftRight_of_testBit_true hbit, sq_mod,
        ← Nat.mul_mod]
      congr 1
      ring

/-- SlowExp computes the X0-th power: for every positive exponent,
the final residue is X0 ^ e mod N. -/
theorem slowExp_execute_pow (N X0 e : Nat) (he : 1 ≤ e) :
    SlowExp.execute N X0 e = X0 ^ e % N := by
  unfold SlowExp.execute
  apply slowExpLoop_inv
  rw [shiftRight_bitlen_pred he, pow_one]

/-!
Sliding-window exponentiation (MultipointExp::sliding_window).

The window width W is selected by a loop that keeps increasing W while a
floating-point cost model says the increase pays off and while the bounds
_W and _max_size (both of type int, -1 meaning unset) allow it.  We embed
the cost comparison over the rationals.
-/

/-- Continue condition of the cost comparison in the W-selection loop:
2^(W-1) + len*(1 + 1/(W+1)) > 2^W + len*(1 + 1/(W+2)). -/
def costGT (len W : Nat) : Prop :=
  (2 : ℚ) ^ (W - 1) + (len : ℚ) * (1 + 1 / ((W : ℚ) + 1)) >
    (2 : ℚ) ^ W + (len : ℚ) * (1 + 1 / ((W : ℚ) + 2))

instance (len W : Nat) : Decidable (costGT len W) := by
  unfold costGT
  infer_instance

theorem costGT_zero_iff (len : Nat) : costGT len 0 ↔ 1 ≤ len := by
  unfold costGT
  norm_num
  constructor
  · intro h
    by_contra hc
    have : len = 0 := by omega
    rw [this] at h
    norm_num at h
  · intro h
    have h1 : (1 : ℚ) ≤ (len : ℚ) := by exact_mod_cast h
    nlinarith

theorem costGT_iff {len W : Nat} (hW : 1 ≤ W) :
    costGT len W ↔ 2 ^ (W - 1) * (W + 1) * (W + 2) < len := by
  unfold costGT
  have hA : (0 : ℚ) < (W : ℚ) + 1 := by positivity
  have hB : (0 : ℚ) < (W : ℚ) + 2 := by positivity
  have h2 : ((2 : ℚ)) ^ W = 2 ^ (W - 1) * 2 := by
    conv_lhs => rw [show W = (W - 1) + 1 by omega]
    rw [pow_succ]
  have eA : (len : ℚ) * (1 + 1 / ((W : ℚ) + 1)) = len + len / ((W : ℚ) + 1) := by
    rw [mul_add, mul_one, mul_one_div]
  have eB : (len : ℚ) * (1 + 1 / ((W : ℚ) + 2)) = len + len / ((W : ℚ) + 2) := by
    rw [mul_add, mul_one, mul_one_div]
  have hkey : (len : ℚ) / ((W : ℚ) + 1) - (len : ℚ) / ((W : ℚ) + 2) =
      (len : ℚ) / (((W : ℚ) + 1) * ((W : ℚ) + 2)) := by
    rw [div_sub_div _ _ hA.ne' hB.ne']
    congr 1
    ring
  have hcast : ((2 ^ (W - 1) * (W + 1) * (W + 2) : Nat) : ℚ) =
      (2 : ℚ) ^ (W - 1) * (((W : ℚ) + 1) * ((W : ℚ) + 2)) := by
    push_cast
    ring
  rw [gt_iff_lt, h2, eA, eB]
  constructor
  · intro h
    have hd : (2 : ℚ) ^ (W - 1) < (len : ℚ) / (((W : ℚ) + 1) * ((W : ℚ) + 2)) := by
      linarith
    have := (lt_div_iff₀ (by positivity)).1 hd
    exact_mod_cast (by rw [hcast]; linarith : ((2 ^ (W - 1) * (W + 1) * (W + 2) : Nat) : ℚ) < len)
  · intro h
    have hq : ((2 ^ (W - 1) * (W + 1) * (W + 2) : Nat) : ℚ) < (len : ℚ) := by
      exact_mod_cast h
    rw [hcast] at hq
    have hd : (2 : ℚ) ^ (W - 1) < (len : ℚ) / (((W : ℚ) + 1) * ((W : ℚ) + 2)) :=
      (lt_div_iff₀ (by positivity)).2 hq
    linarith

theorem costGT_lt {len W : Nat} (h : costGT len W) : W < len := by
  rcases Nat.eq_zero_or_pos W with rfl | hW
  · have := (costGT_zero_iff len).1 h
    omega
  · have hlt := (costGT_iff hW).1 h
    have h1 : 0 < 2 ^ (W - 1) := Nat.two_pow_pos _
    have h3 : W + 1 ≤ 2 ^ (W - 1) * (W + 1) * (W + 2) := by
      calc W + 1 ≤ (W + 1) * (W + 2) := Nat.le_mul_of_pos_right _ (by omega)
        _ ≤ 2 ^ (W - 1) * ((W + 1) * (W + 2)) := Nat.le_mul_of_pos_left _ h1
        _ = 2 ^ (W - 1) * (W + 1) * (W + 2) := by ring
    omega

/-- Guard of the W-selection loop of MultipointExp::sliding_window:
(W < _W or _W unset) and (2^(W+1) <= _max_size or _max_size unset) and the
cost model still improves. -/
def chooseW.cond (len : Nat) (Wb ms : Int) (W : Nat) : Prop :=
  ((W : Int) < Wb ∨ Wb = -1) ∧ (((2 : Int)) ^ (W + 1) ≤ ms ∨ ms = -1) ∧ costGT len W

instance (len : Nat) (Wb ms : Int) (W : Nat) : Decidable (chooseW.cond len Wb ms W) := by
  unfold chooseW.cond
  infer_instance

/-- The W-selection loop itself (for W = 2; ...; W++). -/
def chooseW.loop (len : Nat) (Wb ms : Int) (W : Nat) : Nat :=
  if h : chooseW.cond len Wb ms W then chooseW.loop len Wb ms (W + 1) else W
termination_by len - W
decreasing_by
  have := costGT_lt h.2.2
  omega

/-- Window width selection of MultipointExp::sliding_window, starting at W = 2. -/
def chooseW (len : Nat) (Wb ms : Int) : Nat := chooseW.loop len Wb ms 2

theorem chooseW_loop_eq_pos {len : Nat} {Wb ms : Int} {W : Nat}
    (hc : chooseW.cond len Wb ms W) :
    chooseW.loop len Wb ms W = chooseW.loop len Wb ms (W + 1) := by
  rw [chooseW.loop.eq_def, dif_pos hc]

theorem chooseW_loop_eq_neg {len : Nat} {Wb ms : Int} {W : Nat}
    (hc : ¬ chooseW.cond len Wb ms W) :
    chooseW.loop len Wb ms W = W := by
  rw [chooseW.loop.eq_def, dif_neg hc]

/-- Full characterization of the W-selection loop: the result is at least
the start value, the guard fails at the result, and the guard held at
every intermediate value. -/
theorem chooseW_loop_spec (len : Nat) (Wb ms : Int) :
    ∀ d W, len - W ≤ d →
      W ≤ chooseW.loop len Wb ms W ∧
      ¬ chooseW.cond len Wb ms (chooseW.loop len Wb ms W) ∧
      ∀ V, W ≤ V → V < chooseW.loop len Wb ms W → chooseW.cond len Wb ms V := by
  intro d
  induction d with
  | zero =>
    intro W hW
    have hnc : ¬ chooseW.cond len Wb ms W := by
      intro hc
      have := costGT_lt hc.2.2
      omega
    rw [chooseW_loop_eq_neg hnc]
    exact ⟨le_rfl, hnc, fun V h1 h2 => absurd (lt_of_le_of_lt h1 h2) (lt_irrefl W)⟩
  | succ d ih =>
    intro W hW
    by_cases hc : chooseW.cond len Wb ms W
    · have hlt := costGT_lt hc.2.2
      obtain ⟨ih1, ih2, ih3⟩ := ih (W + 1) (by omega)
      rw [chooseW_loop_eq_pos hc]
      refine ⟨by omega, ih2, ?_⟩
      intro V hVW hVlt
      rcases Nat.eq_or_lt_of_le hVW with rfl | hgt
      · exact hc
      · exact ih3 V (by omega) hVlt
    · rw [chooseW_loop_eq_neg hc]
      exact ⟨le_rfl, hc, fun V h1 h2 => absurd (lt_of_le_of_lt h1 h2) (lt_irrefl W)⟩

/-- Scan for the next set bit upward from j (the inner for-loop on j of
sliding_window).  The fuel bounds the scan; every call site passes enough
fuel to reach a set bit. -/
def lowestSetFrom (e : Nat) (j : Nat) : Nat → Nat
  | 0 => j
  | fuel + 1 => if e.testBit j then j else lowestSetFrom e (j + 1) fuel

theorem lowestSetFrom_le (e : Nat) : ∀ fuel j, lowestSetFrom e j fuel ≤ j + fuel := by
  intro fuel
  induction fuel with
  | zero => intro j; simp [lowestSetFrom]
  | succ fuel ih =>
    intro j
    rw [lowestSetFrom]
    split
    · omega
    · have := ih (j + 1)
      omega

theorem lowestSetFrom_ge (e : Nat) : ∀ fuel j, j ≤ lowestSetFrom e j fuel := by
  intro fuel
  induction fuel with
  | zero => intro j; simp [lowestSetFrom]
  | succ fuel ih =>
    intro j
    rw [lowestSetFrom]
    split
    · exact le_rfl
    · have := ih (j + 1)
      omega

theorem lowestSetFrom_testBit (e : Nat) :
    ∀ fuel j, e.testBit (j + fuel) = true →
      e.testBit (lowestSetFrom e j fuel) = true := by
  intro fuel
  induction fuel with
  | zero =>
    intro j h
    simpa [lowestSetFrom] using h
  | succ fuel ih =>
    intro j h
    rw [lowestSetFrom]
    cases hb : e.testBit j with
    | true => simp [hb]
    | false =>
      rw [if_neg (by simp [hb])]
      exact ih (j + 1) (by rw [show j + 1 + fuel = j + (fuel + 1) by omega]; exact h)

/-- Accumulation of window bits into the odd integer u, as done by the
loop at the top of the exponent (no squarings).  The counter c is the
number of bits still to collect; the bit read at counter c + 1 is j + c. -/
def collectLoop (e : Nat) (j : Nat) (ui : Nat) : Nat → Nat
  | 0 => ui
  | c + 1 => collectLoop e j (2 * ui + (if e.testBit (j + c) then 1 else 0)) c

/-- Squaring across a window while collecting its bits (the general-case
inner loop of the walk). -/
def squareCollect (N e : Nat) (j : Nat) (X ui : Nat) : Nat → Nat × Nat
  | 0 => (X, ui)
  | c + 1 =>
    squareCollect N e j (X * X % N) (2 * ui + (if e.testBit (j + c) then 1 else 0)) c

theorem collectLoop_eq (e j : Nat) :
    ∀ c ui, collectLoop e j ui c = ui * 2 ^ c + e >>> j % 2 ^ c := by
  intro c
  induction c with
  | zero => intro ui; simp [collectLoop, Nat.mod_one]
  | succ c ih =>
    intro ui
    have hsplit : e >>> j % 2 ^ (c + 1) = e >>> j % 2 ^ c + 2 ^ c * (e >>> j / 2 ^ c % 2) := by
      rw [pow_succ, Nat.mod_mul]
    have hbit : (e >>> j).testBit c = e.testBit (j + c) := Nat.testBit_shiftRight e
    rw [Nat.testBit_to_div_mod] at hbit
    rw [collectLoop, ih]
    cases hb : e.testBit (j + c) with
    | false =>
      rw [hb] at hbit
      have h0 : e >>> j / 2 ^ c % 2 = 0 := by
        have := of_decide_eq_false hbit
        omega
      rw [hsplit, h0]
      simp [hb]
      ring
    | true =>
      rw [hb] at hbit
      have h1 : e >>> j / 2 ^ c % 2 = 1 := of_decide_eq_true hbit
      rw [hsplit, h1]
      simp [hb]
      ring

theorem squareCollect_snd (N e j : Nat) :
    ∀ c X ui, (squareCollect N e j X ui c).2 = collectLoop e j ui c := by
  intro c
  induction c with
  | zero => intro X ui; simp [squareCollect, collectLoop]
  | succ c ih =>
    intro X ui
    rw [squareCollect, collectLoop]
    exact ih _ _

theorem squareCollect_fst (N e j : Nat) :
    ∀ c X ui, (squareCollect N e j X ui (c + 1)).1 = X ^ 2 ^ (c + 1) % N := by
  intro c
  induction c with
  | zero =>
    intro X ui
    rw [squareCollect]
    simp [squareCollect]
    rw [pow_two]
  | succ c ih =>
    intro X ui
    rw [squareCollect, ih]
    rw [← Nat.pow_mod]
    congr 1
    ring

/-- The odd-power table _U of sliding_window.  The swap moves the original
X into U[0]; the value X^2 mod N left in X() by the initial squaring then
multiplies each previous entry, so that U[k] holds X^(2k+1) mod N. -/
def MultipointExp.U (N X0 : Nat) : Nat → Nat
  | 0 => X0
  | k + 1 => X0 * X0 % N * MultipointExp.U N X0 k % N

theorem multipointExp_U_eq (N X0 : Nat) (hX0 : X0 < N) :
    ∀ k, MultipointExp.U N X0 k = X0 ^ (2 * k + 1) % N := by
  intro k
  induction k with
  | zero =>
    rw [MultipointExp.U]
    simp [Nat.mod_eq_of_lt hX0]
  | succ k ih =>
    rw [MultipointExp.U, ih]
    rw [Nat.mul_mod, Nat.mod_mod_of_dvd _ dvd_rfl, Nat.mod_mod_of_dvd _ dvd_rfl,
      ← Nat.mul_mod]
    congr 1
    ring

/-- The walk of sliding_window over the bits of the exponent, from the
most significant bit down.  The counter p is the current bit index plus
one (the source index i equals p - 1 and the loop ends at i = -1, that is
p = 0).  The three branches are: a clear bit (single squaring), the window
at the very top of the exponent (table lookup replacing X), and a general
window (squarings across the window then multiplication by a table entry). -/
def slidingWindowLoop (N e len W X0 : Nat) (X : Nat) : Nat → Nat
  | 0 => X
  | p + 1 =>
    if e.testBit p = false then
      slidingWindowLoop N e len W X0 (X * X % N) p
    else
      if p = len then
        slidingWindowLoop N e len W X0
          (MultipointExp.U N X0
            (collectLoop e (lowestSetFrom e (p - (W - 1)) (p - (p - (W - 1)))) 0
              (p + 1 - lowestSetFrom e (p - (W - 1)) (p - (p - (W - 1)))) / 2))
          (lowestSetFrom e (p - (W - 1)) (p - (p - (W - 1))))
      else
        slidingWindowLoop N e len W X0
          (MultipointExp.U N X0
            ((squareCollect N e (lowestSetFrom e (p - (W - 1)) (p - (p - (W - 1)))) X 0
              (p + 1 - lowestSetFrom e (p - (W - 1)) (p - (p - (W - 1))))).2 / 2) *
            (squareCollect N e (lowestSetFrom e (p - (W - 1)) (p - (p - (W - 1)))) X 0
              (p + 1 - lowestSetFrom e (p - (W - 1)) (p - (p - (W - 1))))).1 % N)
          (lowestSetFrom e (p - (W - 1)) (p - (p - (W - 1))))
termination_by p => p
decreasing_by
  · omega
  · have := lowestSetFrom_le e (p - (p - (W - 1))) (p - (W - 1))
    omega
  · have := lowestSetFrom_le e (p - (p - (W - 1))) (p - (W - 1))
    omega

/-- MultipointExp::sliding_window: choose W, build the table (U together
with the squared X left in the X register), then walk the exponent from
bit len = bitlen(exp) - 1 down. -/
def MultipointExp.sliding_window (N : Nat) (Wb ms : Int) (e X : Nat) : Nat :=
  slidingWindowLoop N e (bitlen e - 1) (chooseW (bitlen e - 1) Wb ms) X
    (X * X % N) (bitlen e - 1 + 1)

theorem testBit_shiftRight_zero {e j : Nat} (h : e.testBit j = true) :
    e >>> j % 2 = 1 := by
  have h2 := @Nat.testBit_to_div_mod j e
  rw [h] at h2
  rw [Nat.shiftRight_eq_div_pow]
  exact of_decide_eq_true h2.symm

/-- Invariant of the sliding-window walk below the top window: when X
holds X0 to the power of the bits of e above position p, the walk returns
X0 ^ e mod N. -/
theorem slidingWindowLoop_inv (N e len W X0 : Nat) (hX0 : X0 < N) :
    ∀ p, p ≤ len →
      slidingWindowLoop N e len W X0 (X0 ^ (e >>> p) % N) p = X0 ^ e % N := by
  intro p
  induction p using Nat.strong_induction_on with
  | _ p ih =>
    intro hp
    rcases p with _ | p
    · rw [slidingWindowLoop, Nat.shiftRight_zero]
    · have hplen : p ≠ len := by omega
      cases hb : e.testBit p with
      | false =>
        rw [slidingWindowLoop, if_pos hb]
        have harg : X0 ^ (e >>> (p + 1)) % N * (X0 ^ (e >>> (p + 1)) % N) % N =
            X0 ^ (e >>> p) % N := by
          rw [sq_mod, shiftRight_of_testBit_false hb]
          congr 1
          ring
        rw [harg]
        exact ih p (by omega) (by omega)
      | true =>
        rw [slidingWindowLoop, if_neg (by rw [hb]; simp), if_neg hplen]
        set j := lowestSetFrom e (p - (W - 1)) (p - (p - (W - 1))) with hj
        have hjle : j ≤ p := by
          have := lowestSetFrom_le e (p - (p - (W - 1))) (p - (W - 1))
          omega
        have hbitj : e.testBit j = true := by
          rw [hj]
          apply lowestSetFrom_testBit
          rw [show p - (W - 1) + (p - (p - (W - 1))) = p by omega]
          exact hb
        obtain ⟨c', hc'⟩ : ∃ c', p + 1 - j = c' + 1 := ⟨p - j, by omega⟩
        rw [hc']
        have hsnd : (squareCollect N e j (X0 ^ (e >>> (p + 1)) % N) 0 (c' + 1)).2 =
            e >>> j % 2 ^ (c' + 1) := by
          rw [squareCollect_snd, collectLoop_eq]
          simp
        have hfst := squareCollect_fst N e j c' (X0 ^ (e >>> (p + 1)) % N) 0
        rw [hsnd, hfst]
        set u := e >>> j % 2 ^ (c' + 1) with hu
        have hu2 : u % 2 = 1 := by
          rw [hu, Nat.mod_mod_of_dvd _ (dvd_pow_self 2 (Nat.succ_ne_zero c'))]
          exact testBit_shiftRight_zero hbitj
        have hU : MultipointExp.U N X0 (u / 2) = X0 ^ u % N := by
          rw [multipointExp_U_eq N X0 hX0, show 2 * (u / 2) + 1 = u by omega]
        have hXpow : (X0 ^ (e >>> (p + 1)) % N) ^ 2 ^ (c' + 1) % N =
            X0 ^ (e >>> (p + 1) * 2 ^ (c' + 1)) % N := by
          rw [← Nat.pow_mod, ← pow_mul]
        have hdiv : e >>> j / 2 ^ (c' + 1) = e >>> (p + 1) := by
          rw [← Nat.shiftRight_eq_div_pow, ← Nat.shiftRight_add]
          congr 1
          omega
        have hexp : u + e >>> (p + 1) * 2 ^ (c' + 1) = e >>> j := by
          have hdm := Nat.div_add_mod (e >>> j) (2 ^ (c' + 1))
          rw [hu, ← hdiv]
          rw [Nat.mul_comm (e >>> j / 2 ^ (c' + 1)) (2 ^ (c' + 1))]
          linarith
        have harg : X0 ^ u % N * (X0 ^ (e >>> (p + 1) * 2 ^ (c' + 1)) % N) % N =
            X0 ^ (e >>> j) % N := by
          rw [← Nat.mul_mod, ← pow_add, hexp]
        rw [hU, hXpow, harg]
        exact ih j (by omega) (by omega)

/-- Sliding-window exponentiation is correct: for a positive exponent and
a residue X, the walk computes X ^ e mod N. -/
theorem sliding_window_pow (N : Nat) (Wb ms : Int) (e X : Nat)
    (he : 1 ≤ e) (hX : X < N) :
    MultipointExp.sliding_window N Wb ms e X = X ^ e % N := by
  unfold MultipointExp.sliding_window
  have htop : e.testBit (bitlen e - 1) = true := testBit_bitlen_pred he
  rw [slidingWindowLoop, if_neg (by rw [htop]; simp), if_pos rfl]
  set len := bitlen e - 1 with hlen
  set j := lowestSetFrom e (len - (chooseW len Wb ms - 1))
    (len - (len - (chooseW len Wb ms - 1))) with hj
  have hjle : j ≤ len := by
    have := lowestSetFrom_le e (len - (len - (chooseW len Wb ms - 1)))
      (len - (chooseW len Wb ms - 1))
    omega
  have hbitj : e.testBit j = true := by
    rw [hj]
    apply lowestSetFrom_testBit
    rw [show len - (chooseW len Wb ms - 1) +
      (len - (len - (chooseW len Wb ms - 1))) = len by omega]
    exact htop
  obtain ⟨c', hc'⟩ : ∃ c', len + 1 - j = c' + 1 := ⟨len - j, by omega⟩
  rw [hc']
  have hcoll : collectLoop e j 0 (c' + 1) = e >>> j % 2 ^ (c' + 1) := by
    rw [collectLoop_eq]
    simp
  have hlt : e >>> j < 2 ^ (c' + 1) := by
    rw [Nat.shiftRight_eq_div_pow]
    rw [Nat.div_lt_iff_lt_mul (Nat.two_pow_pos j)]
    calc e < 2 ^ bitlen e := bitlen_lt e
      _ = 2 ^ (c' + 1 + j) := by
        congr 1
        have := bitlen_pos he
        omega
      _ = 2 ^ (c' + 1) * 2 ^ j := by rw [pow_add]
  have hmod : e >>> j % 2 ^ (c' + 1) = e >>> j := Nat.mod_eq_of_lt hlt
  rw [hcoll, hmod]
  have hodd : e >>> j % 2 = 1 := testBit_shiftRight_zero hbitj
  have hU : MultipointExp.U N X (e >>> j / 2) = X ^ (e >>> j) % N := by
    rw [multipointExp_U_eq N X hX, show 2 * (e >>> j / 2) + 1 = e >>> j by omega]
  rw [hU]
  exact slidingWindowLoop_inv N e len (chooseW len Wb ms) X hX j hjle

/-- Repeated squaring between points (the b = 2 branch of
MultipointExp::execute): d squarings of X modulo N. -/
def squareN (N X : Nat) : Nat → Nat
  | 0 => X
  | d + 1 => squareN N (X * X % N) d

theorem squareN_pow (N : Nat) : ∀ d X, squareN N X (d + 1) = X ^ 2 ^ (d + 1) % N := by
  intro d
  induction d with
  | zero =>
    intro X
    rw [squareN, squareN, pow_one, pow_two]
  | succ d ih =>
    intro X
    rw [squareN, ih]
    rw [← Nat.pow_mod]
    congr 1
    ring

/-- One inter-point step of MultipointExp::execute, advancing from
iteration i to point p: pure squaring when b = 2, otherwise a sliding
window by the cached exponent b^(p - i). -/
def MultipointExp.point_step (N b : Nat) (Wb ms : Int) (i X p : Nat) : Nat :=
  if b = 2 then squareN N X (p - i)
  else MultipointExp.sliding_window N Wb ms (b ^ (p - i)) X

/-- The outer loop of MultipointExp::execute over the remaining points. -/
def MultipointExp.loop (N b : Nat) (Wb ms : Int) : Nat → Nat → List Nat → Nat
  | _, X, [] => X
  | i, X, p :: rest =>
    MultipointExp.loop N b Wb ms p (MultipointExp.point_step N b Wb ms i X p) rest

/-- MultipointExp::execute from a state (i0, X): skip the points at or
below the current iteration (the initial next_point scan), then run the
point loop. -/
def MultipointExp.execute (N b : Nat) (Wb ms : Int) (points : List Nat) (i0 X : Nat) : Nat :=
  MultipointExp.loop N b Wb ms i0 X (points.dropWhile (fun p => decide (p ≤ i0)))

/-- MultipointExp::execute including the GWASSERT(state() != nullptr)
entry check: with no state the assertion fires (modelled as none) and no
residue is produced. -/
def MultipointExp.executeOpt (N b : Nat) (Wb ms : Int) (points : List Nat)
    (st : Option (Nat × Nat)) : Option Nat :=
  match st with
  | none => none
  | some (i, X) => some (MultipointExp.execute N b Wb ms points i X)

theorem multipoint_step_pow (N b : Nat) (Wb ms : Int) (i X p : Nat)
    (hb : 1 ≤ b) (hip : i < p) (hX : X < N) :
    MultipointExp.point_step N b Wb ms i X p = X ^ b ^ (p - i) % N := by
  unfold MultipointExp.point_step
  split
  · rename_i hb2
    subst hb2
    obtain ⟨d, hd⟩ : ∃ d, p - i = d + 1 := ⟨p - i - 1, by omega⟩
    rw [hd, squareN_pow]
  · exact sliding_window_pow N Wb ms (b ^ (p - i)) X (Nat.one_le_pow _ _ hb) hX

/-- Invariant of the point loop: starting at iteration i with residue
X0 ^ (b ^ i) mod N and a strictly increasing list of points above i, the
loop ends with X0 raised to b to the last point. -/
theorem multipoint_loop_inv (N b : Nat) (Wb ms : Int) (hb : 1 ≤ b) (X0 : Nat)
    (hX0 : X0 < N) :
    ∀ l i Xc, Xc = X0 ^ b ^ i % N → List.Chain (fun a c => a < c) i l →
      MultipointExp.loop N b Wb ms i Xc l = X0 ^ b ^ (l.getLastD i) % N := by
  intro l
  induction l with
  | nil =>
    intro i Xc hXc _
    rw [MultipointExp.loop]
    simpa using hXc
  | cons p rest ih =>
    intro i Xc hXc hchain
    rw [List.chain_cons] at hchain
    obtain ⟨hip, hch⟩ := hchain
    rw [MultipointExp.loop]
    have hN : 0 < N := by omega
    have hstep : MultipointExp.point_step N b Wb ms i Xc p = X0 ^ b ^ p % N := by
      rw [multipoint_step_pow N b Wb ms i Xc p hb hip (hXc ▸ Nat.mod_lt _ hN), hXc]
      rw [← Nat.pow_mod, ← pow_mul, ← pow_add, show i + (p - i) = p by omega]
    rw [ih p _ hstep hch]
    rw [List.getLastD_cons]

/-- MultipointExp::execute started at iteration 0 computes X raised to
b to the last point, for any strictly increasing nonempty point schedule:
the result only depends on the last point, not on the schedule. -/
theorem multipointExp_execute_pow (N b : Nat) (Wb ms : Int) (points : List Nat)
    (X : Nat) (hb : 1 ≤ b) (hX : X < N)
    (hchain : points.Chain' (fun a c => a < c)) (hne : points ≠ []) :
    MultipointExp.execute N b Wb ms points 0 X = X ^ b ^ (points.getLastD 0) % N := by
  unfold MultipointExp.execute
  cases points with
  | nil => exact absurd rfl hne
  | cons p t =>
    have hch : List.Chain (fun a c => a < c) p t := hchain
    have hX0 : X = X ^ b ^ 0 % N := by
      simp [Nat.mod_eq_of_lt hX]
    by_cases hp : p = 0
    · subst hp
      rw [List.dropWhile_cons, if_pos (by simp)]
      cases t with
      | nil =>
        simp only [List.dropWhile_nil, MultipointExp.loop, List.getLastD_cons,
          List.getLastD_nil]
        exact hX0
      | cons q t' =>
        have hq : 0 < q := (List.chain_cons.mp hch).1
        rw [List.dropWhile_cons, if_neg (by simp; omega)]
        rw [multipoint_loop_inv N b Wb ms hb X hX (q :: t') 0 X hX0 hch]
        simp [List.getLastD_cons]
    · rw [List.dropWhile_cons, if_neg (by simp; omega)]
      have hch0 : List.Chain (fun a c => a < c) 0 (p :: t) :=
        List.Chain.cons (by omega) hch
      rw [multipoint_loop_inv N b Wb ms hb X hX (p :: t) 0 X hX0 hch0]

/-!
GerbiczCheckMultipointExp: parameter selection, startup state check, and
the verification step at the end of each Gerbicz block.
-/

/-- Scan loop of Gerbicz_params: for i upward while i*i < 2*iters,
replace (L, L2) by (i, iters - iters mod i) whenever that increases L2. -/
def Gerbicz_params_loop (iters L L2 i : Nat) : Nat × Nat :=
  if h : i * i < 2 * iters then
    if L2 < iters - iters % i then Gerbicz_params_loop iters i (iters - iters % i) (i + 1)
    else Gerbicz_params_loop iters L L2 (i + 1)
  else (L, L2)
termination_by 2 * iters - i
decreasing_by
  all_goals
    rcases Nat.eq_zero_or_pos i with rfl | hpos
    · omega
    · have := Nat.le_mul_of_pos_left i hpos
      omega

/-- GerbiczCheckMultipointExp::Gerbicz_params.  The source takes log2b
but immediately overwrites it with 1 (the commented-out halving branch is
not executed), so L starts from sqrt(iters/1) = sqrt(iters) and the scan
bound is 2*iters/1 = 2*iters.  The parameter is kept to mirror the
interface; the body does not depend on it. -/
def GerbiczCheckMultipointExp.Gerbicz_params (iters : Nat) (_log2b : ℚ) : Nat × Nat :=
  Gerbicz_params_loop iters (Nat.sqrt iters) (iters - iters % Nat.sqrt iters)
    (Nat.sqrt iters + 1)

theorem Gerbicz_params_loop_eq_pos {iters L L2 i : Nat} (h : i * i < 2 * iters) :
    Gerbicz_params_loop iters L L2 i =
      if L2 < iters - iters % i then Gerbicz_params_loop iters i (iters - iters % i) (i + 1)
      else Gerbicz_params_loop iters L L2 (i + 1) := by
  rw [Gerbicz_params_loop.eq_def, dif_pos h]

theorem Gerbicz_params_loop_eq_neg {iters L L2 i : Nat} (h : ¬ i * i < 2 * iters) :
    Gerbicz_params_loop iters L L2 i = (L, L2) := by
  rw [Gerbicz_params_loop.eq_def, dif_neg h]

/-- The scan preserves the shape of its state: L stays positive and L2
stays equal to iters - iters mod L. -/
theorem Gerbicz_params_loop_inv (iters : Nat) :
    ∀ d i L L2, 2 * iters - i ≤ d → 1 ≤ L → L2 = iters - iters % L →
      1 ≤ (Gerbicz_params_loop iters L L2 i).1 ∧
      (Gerbicz_params_loop iters L L2 i).2 =
        iters - iters % (Gerbicz_params_loop iters L L2 i).1 := by
  intro d
  induction d with
  | zero =>
    intro i L L2 hd hL hL2
    have hstop : ¬ i * i < 2 * iters := by
      intro hc
      rcases Nat.eq_zero_or_pos i with rfl | hpos
      · omega
      · have := Nat.le_mul_of_pos_left i hpos
        omega
    rw [Gerbicz_params_loop_eq_neg hstop]
    exact ⟨hL, hL2⟩
  | succ d ih =>
    intro i L L2 hd hL hL2
    by_cases hgo : i * i < 2 * iters
    · have hi : i < 2 * iters := by
        rcases Nat.eq_zero_or_pos i with rfl | hpos
        · omega
        · have := Nat.le_mul_of_pos_left i hpos
          omega
      rw [Gerbicz_params_loop_eq_pos hgo]
      by_cases hupd : L2 < iters - iters % i
      · have hipos : 1 ≤ i := by
          rcases Nat.eq_zero_or_pos i with rfl | hpos
          · rw [Nat.mod_zero] at hupd
            omega
          · exact hpos
        rw [if_pos hupd]
        exact ih (i + 1) i (iters - iters % i) (by omega) hipos rfl
      · rw [if_neg hupd]
        exact ih (i + 1) L L2 (by omega) hL hL2
    · rw [Gerbicz_params_loop_eq_neg hgo]
      exact ⟨hL, hL2⟩

/-- The Gerbicz parameters satisfy their contract: L2 is a multiple of L,
L2 is at most n, and L2 is at least n - L; moreover L2 = n - n mod L. -/
theorem gerbicz_params_shape (n : Nat) (log2b : ℚ) (hn : 1 ≤ n) :
    1 ≤ (GerbiczCheckMultipointExp.Gerbicz_params n log2b).1 ∧
    (GerbiczCheckMultipointExp.Gerbicz_params n log2b).2 =
      n - n % (GerbiczCheckMultipointExp.Gerbicz_params n log2b).1 := by
  unfold GerbiczCheckMultipointExp.Gerbicz_params
  exact Gerbicz_params_loop_inv n (2 * n - (Nat.sqrt n + 1)) (Nat.sqrt n + 1)
    (Nat.sqrt n) (n - n % Nat.sqrt n) le_rfl (Nat.sqrt_pos.2 hn) rfl

/-- The startup working-state decision of
GerbiczCheckMultipointExp::init_state: a loaded working cursor is kept
only if recovery <= working < recovery + L2, otherwise the cursor is reset
to the recovery iteration (also when nothing was loaded). -/
def GerbiczCheckMultipointExp.init_state (L2 recovery : Nat) (working : Option Nat) : Nat :=
  match working with
  | none => recovery
  | some w => if w < recovery ∨ recovery + L2 ≤ w then recovery else w

/-- Cursor trace of the inner block loop of
GerbiczCheckMultipointExp::execute: while j < L2, advance j and the
working iteration i by the step s (1 in the b = 2 branch, L in the
b != 2 branch) and commit the working state at the incremented i.  The
fuel argument bounds the iteration count; L2 - j suffices for every
positive step, which the source guarantees since L stays at least 1. -/
def blockCursorAux (L2 s : Nat) (i j : Nat) : Nat → List Nat
  | 0 => []
  | fuel + 1 =>
    if j < L2 then (i + s) :: blockCursorAux L2 s (i + s) (j + s) fuel else []

/-- The working iterations committed by one Gerbicz block entered at
cursor i0 with recovery iteration r: the source enters the loop with
j = i - state()->iteration(). -/
def gerbiczBlockCursors (L2 s r i0 : Nat) : List Nat :=
  blockCursorAux L2 s i0 (i0 - r) (L2 - (i0 - r))

/-- Every cursor committed by the block loop stays in the closed interval
[r, r + L2], provided the cursor entered in step with the recovery
iteration (i = r + j), at most L2 beyond it, and the step divides both the
offset and L2 (trivial for the unit step of the b = 2 branch; the b != 2
branch asserts (i - recovery) mod L == 0 and uses L2 a multiple of L). -/
theorem blockCursorAux_mem_bounds (L2 s r : Nat) (hdL2 : s ∣ L2) :
    ∀ fuel i j, i = r + j → j ≤ L2 → s ∣ j →
      ∀ c ∈ blockCursorAux L2 s i j fuel, r ≤ c ∧ c ≤ r + L2 := by
  intro fuel
  induction fuel with
  | zero =>
    intro i j _ _ _ c hc
    simp [blockCursorAux] at hc
  | succ fuel ih =>
    intro i j hi hj hdj c hc
    rw [blockCursorAux] at hc
    by_cases hlt : j < L2
    · rw [if_pos hlt] at hc
      have hstep : j + s ≤ L2 := by
        obtain ⟨a, ha⟩ := hdj
        obtain ⟨b, hb⟩ := hdL2
        have hlt2 : s * a < s * b := by
          rw [← ha, ← hb]
          exact hlt
        have hab : a < b := Nat.lt_of_mul_lt_mul_left hlt2
        have hmul := Nat.mul_le_mul_left s (show a + 1 ≤ b by omega)
        rw [Nat.mul_add, Nat.mul_one] at hmul
        rw [ha, hb]
        exact hmul
      rcases List.mem_cons.mp hc with rfl | hc2
      · omega
      · exact ih (i + s) (j + s) (by omega) hstep (Dvd.dvd.add hdj (dvd_refl s)) c hc2
    · rw [if_neg hlt] at hc
      simp at hc

/-- GerbiczCheckMultipointExp::setup: the recovery residue R is taken from
the state X; GWASSERT(state() != nullptr) makes a missing state fatal,
modelled as none. -/
def GerbiczCheckMultipointExp.setup (st : Option (Nat × Nat)) : Option Nat :=
  match st with
  | none => none
  | some (_, X) => some X

/-- State of the Gerbicz-checked task around a verification: the recovery
state (iteration and residue R), the working cursor and residues X and D,
and the two operation counters. -/
structure GerbiczState where
  recoveryIter : Nat
  R : Nat
  workingIter : Nat
  X : Nat
  D : Nat
  restartOp : Nat
  recoveryOp : Nat
deriving DecidableEq

/-- Modular subtraction of residues (gw sub). -/
def modSub (N a b : Nat) : Nat := (a + (N - b)) % N

/-- The careful power computed from the pre-fold D in the verification
step: L careful squarings when b = 2, otherwise one careful sliding
window by b^L. -/
def GerbiczCheckMultipointExp.verifyPow (N b L : Nat) (Wb ms : Int) (D : Nat) : Nat :=
  if b = 2 then squareN N D L else MultipointExp.sliding_window N Wb ms (b ^ L) D

/-- D_new of the verification step: X_end times the pre-fold D. -/
def GerbiczCheckMultipointExp.Dnew (N : Nat) (s : GerbiczState) : Nat := s.X * s.D % N

/-- The residue whose vanishing is tested by the verification step:
R * D^(b^L) - D_new modulo N (computed carefully in the source). -/
def GerbiczCheckMultipointExp.diff (N b L : Nat) (Wb ms : Int) (s : GerbiczState) : Nat :=
  modSub N (s.R * GerbiczCheckMultipointExp.verifyPow N b L Wb ms s.D % N)
    (GerbiczCheckMultipointExp.Dnew N s)

/-- The Gerbicz verification step at the end of a block.  On failure
(nonzero difference or zero D_new) the working cursor is reset to the
recovery iteration, restart_op is rolled back to recovery_op, and a
restart exception is raised (the error branch).  On success R and D are
replaced by the verified working residue, the recovery state moves to the
working iteration, and recovery_op catches up with restart_op. -/
def GerbiczCheckMultipointExp.check (N b L : Nat) (Wb ms : Int) (s : GerbiczState) :
    Except GerbiczState GerbiczState :=
  if GerbiczCheckMultipointExp.diff N b L Wb ms s ≠ 0 ∨
      GerbiczCheckMultipointExp.Dnew N s = 0 then
    Except.error { s with workingIter := s.recoveryIter, restartOp := s.recoveryOp }
  else
    Except.ok { s with
      R := s.X
      D := s.X
      recoveryIter := s.workingIter
      recoveryOp := s.restartOp }

theorem modSub_eq_zero_iff {N a b : Nat} (ha : a < N) (hb : b < N) :
    modSub N a b = 0 ↔ a = b := by
  unfold modSub
  constructor
  · intro h
    obtain ⟨k, hk⟩ := Nat.dvd_of_mod_eq_zero h
    rcases k with _ | _ | k
    · omega
    · omega
    · have h2 : N * 2 ≤ N * (k + 1 + 1) := Nat.mul_le_mul_left N (by omega)
      omega
  · intro h
    subst h
    rw [show a + (N - a) = N by omega, Nat.mod_self]

theorem gerbicz_verifyPow_eq (N b L : Nat) (Wb ms : Int) (D : Nat)
    (hb : 1 ≤ b) (hL : 1 ≤ L) (hD : D < N) :
    GerbiczCheckMultipointExp.verifyPow N b L Wb ms D = D ^ b ^ L % N := by
  unfold GerbiczCheckMultipointExp.verifyPow
  split
  · rename_i hb2
    subst hb2
    obtain ⟨d, hd⟩ : ∃ d, L = d + 1 := ⟨L - 1, by omega⟩
    rw [hd, squareN_pow]
  · exact sliding_window_pow N Wb ms (b ^ L) D (Nat.one_le_pow _ _ hb) hD

/-- The difference vanishes exactly when R * D^(b^L) and X_end * D agree
modulo N. -/
theorem gerbicz_diff_eq_zero_iff (N b L : Nat) (Wb ms : Int) (s : GerbiczState)
    (hb : 1 ≤ b) (hL : 1 ≤ L) (hD : s.D < N) :
    GerbiczCheckMultipointExp.diff N b L Wb ms s = 0 ↔
      s.R * s.D ^ b ^ L % N = s.X * s.D % N := by
  have hN : 0 < N := by omega
  unfold GerbiczCheckMultipointExp.diff GerbiczCheckMultipointExp.Dnew
  rw [gerbicz_verifyPow_eq N b L Wb ms s.D hb hL hD]
  rw [show s.R * (s.D ^ b ^ L % N) % N = s.R * s.D ^ b ^ L % N by
    rw [Nat.mul_mod, Nat.mod_mod_of_dvd _ dvd_rfl, ← Nat.mul_mod]]
  exact modSub_eq_zero_iff (Nat.mod_lt _ hN) (Nat.mod_lt _ hN)

/-!
Claim theorems.
-/

/-- Claim C1 (amended to positive exponents): for every modulus N, small
base x0 and exponent e with 1 <= e, FastExp runs bitlen(e) - 1
left-to-right binary steps (squaring with the multiply-by-x0 fused in
when the bit is set, as in the loop embedding) and its final residue is
x0 ^ e mod N.  At e = 0 the loop body never runs and the residue stays
x0, so the unrestricted claim fails. -/
theorem claimC1 (N x0 e : Nat) (he : 1 ≤ e) :
    FastExp.execute N x0 e = x0 ^ e % N :=
  fastExp_execute_pow N x0 e he

theorem claimC1_counterexample : ¬ (FastExp.execute 5 3 0 = 3 ^ 0 % 5) := by decide

theorem claimC1_witness : 1 ≤ 17 ∧ FastExp.execute 1009 3 17 = 3 ^ 17 % 1009 :=
  ⟨by decide, claimC1 1009 3 17 (by decide)⟩

/-- Claim C2: for every base b >= 1, strictly increasing nonempty point
schedule, modulus N and starting residue X < N, MultipointExp started at
iteration 0 ends with X ^ (b ^ last point) mod N, and the result agrees
for any two schedules with the same last point. -/
theorem claimC2 (N b : Nat) (Wb ms : Int) (points : List Nat) (X : Nat)
    (hb : 1 ≤ b) (hX : X < N) (hchain : points.Chain' (fun a c => a < c))
    (hne : points ≠ []) :
    MultipointExp.execute N b Wb ms points 0 X = X ^ b ^ (points.getLastD 0) % N ∧
    ∀ points2, points2.Chain' (fun a c => a < c) → points2 ≠ [] →
      points2.getLastD 0 = points.getLastD 0 →
      MultipointExp.execute N b Wb ms points2 0 X =
        MultipointExp.execute N b Wb ms points 0 X := by
  have h1 := multipointExp_execute_pow N b Wb ms points X hb hX hchain hne
  refine ⟨h1, ?_⟩
  intro points2 hchain2 hne2 hlast
  rw [multipointExp_execute_pow N b Wb ms points2 X hb hX hchain2 hne2, hlast, h1]

theorem claimC2_witness :
    MultipointExp.execute 1009 2 (-1) (-1) [3, 5] 0 3 = 3 ^ 2 ^ 5 % 1009 :=
  (claimC2 1009 2 (-1) (-1) [3, 5] 3 (by decide) (by decide)
    (List.chain'_cons.mpr ⟨by decide, List.chain'_singleton 5⟩) (by decide)).1

/-- Claim C3 (amended): the verification step compares
T := D_before_last_fold ^ (b ^ L) * R (the careful squarings are applied
to the pre-fold D, not to R) against D_new = X_end * D_before_last_fold,
and the block is verified exactly when the difference is zero and D_new
is nonzero. -/
theorem claimC3 (N b L : Nat) (Wb ms : Int) (s : GerbiczState)
    (hb : 1 ≤ b) (hL : 1 ≤ L) (hD : s.D < N) :
    (GerbiczCheckMultipointExp.check N b L Wb ms s).isOk = true ↔
      (s.R * s.D ^ b ^ L % N = s.X * s.D % N ∧ s.X * s.D % N ≠ 0) := by
  have hdz := gerbicz_diff_eq_zero_iff N b L Wb ms s hb hL hD
  unfold GerbiczCheckMultipointExp.check
  split
  · rename_i h
    constructor
    · intro hok
      exact Bool.noConfusion hok
    · rintro ⟨h1, h2⟩
      rcases h with h | h
      · exact absurd (hdz.mpr h1) h
      · exact absurd h h2
  · rename_i h
    push_neg at h
    constructor
    · intro _
      exact ⟨hdz.mp h.1, h.2⟩
    · intro _
      rfl

theorem claimC3_counterexample :
    (GerbiczCheckMultipointExp.check 7 2 1 (-1) (-1) ⟨0, 2, 2, 6, 3, 0, 0⟩).isOk = true ∧
    ¬ ((2 : Nat) ^ 2 ^ 1 * 3 % 7 = 6 * 3 % 7) := by decide

theorem claimC3_witness :
    (GerbiczCheckMultipointExp.check 7 2 1 (-1) (-1) ⟨0, 2, 2, 6, 3, 0, 0⟩).isOk = true :=
  (claimC3 7 2 1 (-1) (-1) ⟨0, 2, 2, 6, 3, 0, 0⟩ (by decide) (by decide) (by decide)).mpr
    ⟨by decide, by decide⟩

/-- Claim C4: for every n >= 1 (log2b being forced to 1 by the source),
Gerbicz_params returns L and L2 with L2 a multiple of L, L2 <= n and
L2 >= n - L, following the floor-sqrt start and the upward scan while
i * i < 2 * n. -/
theorem claimC4 (n : Nat) (log2b : ℚ) (hn : 1 ≤ n) :
    (GerbiczCheckMultipointExp.Gerbicz_params n log2b).2 %
      (GerbiczCheckMultipointExp.Gerbicz_params n log2b).1 = 0 ∧
    (GerbiczCheckMultipointExp.Gerbicz_params n log2b).2 ≤ n ∧
    n - (GerbiczCheckMultipointExp.Gerbicz_params n log2b).1 ≤
      (GerbiczCheckMultipointExp.Gerbicz_params n log2b).2 := by
  obtain ⟨hL, hL2⟩ := gerbicz_params_shape n log2b hn
  have hdm := Nat.div_add_mod n (GerbiczCheckMultipointExp.Gerbicz_params n log2b).1
  have hmlt : n % (GerbiczCheckMultipointExp.Gerbicz_params n log2b).1 <
      (GerbiczCheckMultipointExp.Gerbicz_params n log2b).1 :=
    Nat.mod_lt n (by omega)
  refine ⟨?_, by omega, by omega⟩
  rw [hL2, show n - n % (GerbiczCheckMultipointExp.Gerbicz_params n log2b).1 =
    (GerbiczCheckMultipointExp.Gerbicz_params n log2b).1 *
      (n / (GerbiczCheckMultipointExp.Gerbicz_params n log2b).1) by omega,
    Nat.mul_mod_right]

theorem claimC4_witness :
    (GerbiczCheckMultipointExp.Gerbicz_params 10000 1).2 %
      (GerbiczCheckMultipointExp.Gerbicz_params 10000 1).1 = 0 ∧
    (GerbiczCheckMultipointExp.Gerbicz_params 10000 1).2 ≤ 10000 ∧
    10000 - (GerbiczCheckMultipointExp.Gerbicz_params 10000 1).1 ≤
      (GerbiczCheckMultipointExp.Gerbicz_params 10000 1).2 :=
  claimC4 10000 1 (by decide)

/-- Claim C5 (amended only in the startup keep-rule): in Gerbicz mode the
working iteration always lies in the closed interval
[recovery, recovery + L2] - every cursor committed by a block entered
under the source's asserts (cursor at least the recovery iteration and at
most L2 beyond it, advancing by a step dividing both the offset and L2)
stays in that interval, and so does the cursor produced at startup.  On
startup a loaded working state outside [recovery, recovery + L2) is
discarded and execution resumes from the recovery state; a loaded state
is kept exactly when its iteration lies in the half-open interval
[recovery, recovery + L2) - the source discards at >= recovery + L2, so
the upper endpoint of the closed interval is not kept. -/
theorem claimC5 (L2 r i0 s : Nat) (wo : Option Nat)
    (hdL2 : s ∣ L2) (hdj : s ∣ (i0 - r)) (hrec : r ≤ i0) (hassert : i0 - r ≤ L2) :
    (∀ c ∈ gerbiczBlockCursors L2 s r i0, r ≤ c ∧ c ≤ r + L2) ∧
    r ≤ GerbiczCheckMultipointExp.init_state L2 r wo ∧
    GerbiczCheckMultipointExp.init_state L2 r wo ≤ r + L2 ∧
    ∀ w, wo = some w →
      ((r ≤ w ∧ w < r + L2) → GerbiczCheckMultipointExp.init_state L2 r wo = w) ∧
      ((w < r ∨ r + L2 ≤ w) → GerbiczCheckMultipointExp.init_state L2 r wo = r) := by
  refine ⟨?_, ?_⟩
  · unfold gerbiczBlockCursors
    exact blockCursorAux_mem_bounds L2 s r hdL2 (L2 - (i0 - r)) i0 (i0 - r)
      (by omega) hassert hdj
  cases wo with
  | none =>
    simp only [GerbiczCheckMultipointExp.init_state]
    exact ⟨le_rfl, by omega, fun w h => by cases h⟩
  | some w =>
    simp only [GerbiczCheckMultipointExp.init_state]
    by_cases hcond : w < r ∨ r + L2 ≤ w
    · rw [if_pos hcond]
      refine ⟨le_rfl, by omega, ?_⟩
      intro w2 h2
      obtain rfl : w = w2 := by injection h2
      exact ⟨fun hin => by omega, fun _ => rfl⟩
    · rw [if_neg hcond]
      refine ⟨by omega, by omega, ?_⟩
      intro w2 h2
      obtain rfl : w = w2 := by injection h2
      exact ⟨fun _ => rfl, fun hout => by omega⟩

theorem claimC5_counterexample :
    GerbiczCheckMultipointExp.init_state 4 10 (some 14) = 10 ∧
    10 ≤ 14 ∧ 14 ≤ 10 + 4 ∧ (14 : Nat) ≠ 10 := by decide

theorem claimC5_witness :
    (10 ≤ 14 ∧ 14 ≤ 10 + 4) ∧
    10 ≤ GerbiczCheckMultipointExp.init_state 4 10 (some 12) ∧
    GerbiczCheckMultipointExp.init_state 4 10 (some 12) ≤ 10 + 4 ∧
    GerbiczCheckMultipointExp.init_state 4 10 (some 12) = 12 := by
  have h := claimC5 4 10 10 1 (some 12) (by decide) (by decide) (by decide) (by decide)
  exact ⟨h.1 14 (by decide), h.2.1, h.2.2.1, (h.2.2.2 12 rfl).1 (by decide)⟩

/-- Claim C6: whenever the Gerbicz verification fails (the compared
residues disagree or D_new is zero), check raises the restart exception
(error result) whose state has the working cursor reset to the recovery
iteration and restart_op rolled back to recovery_op, while the recovery
state (iteration and residue R) and everything else are unchanged. -/
theorem claimC6 (N b L : Nat) (Wb ms : Int) (s : GerbiczState)
    (hb : 1 ≤ b) (hL : 1 ≤ L) (hD : s.D < N)
    (hfail : ¬ (s.R * s.D ^ b ^ L % N = s.X * s.D % N ∧ s.X * s.D % N ≠ 0)) :
    GerbiczCheckMultipointExp.check N b L Wb ms s =
      Except.error { s with workingIter := s.recoveryIter, restartOp := s.recoveryOp } := by
  have hdz := gerbicz_diff_eq_zero_iff N b L Wb ms s hb hL hD
  have hcond : GerbiczCheckMultipointExp.diff N b L Wb ms s ≠ 0 ∨
      GerbiczCheckMultipointExp.Dnew N s = 0 := by
    by_cases h1 : GerbiczCheckMultipointExp.diff N b L Wb ms s = 0
    · right
      by_contra h2
      exact hfail ⟨hdz.mp h1, h2⟩
    · left
      exact h1
  unfold GerbiczCheckMultipointExp.check
  rw [if_pos hcond]

theorem claimC6_witness :
    GerbiczCheckMultipointExp.check 7 2 1 (-1) (-1) ⟨5, 1, 7, 2, 1, 9, 4⟩ =
      Except.error ⟨5, 1, 5, 2, 1, 4, 4⟩ :=
  claimC6 7 2 1 (-1) (-1) ⟨5, 1, 7, 2, 1, 9, 4⟩ (by decide) (by decide) (by decide)
    (by decide)

/-- Claim C7 (amended to positive exponents): SlowExp follows the same
binary skeleton as FastExp with an explicit multiplication by the residue
X0 after the squaring on set bits, and for 1 <= e its final residue is
X0 ^ e mod N.  At e = 0 the loop never runs and the residue stays X0. -/
theorem claimC7 (N X0 e : Nat) (he : 1 ≤ e) :
    SlowExp.execute N X0 e = X0 ^ e % N :=
  slowExp_execute_pow N X0 e he

theorem claimC7_counterexample : ¬ (SlowExp.execute 5 3 0 = 3 ^ 0 % 5) := by decide

theorem claimC7_witness : 1 ≤ 23 ∧ SlowExp.execute 1009 17 23 = 17 ^ 23 % 1009 :=
  ⟨by decide, claimC7 1009 17 23 (by decide)⟩

/-- Claim C8 (amended): the chosen window width is the smallest W >= 2 at
which the continue-guard fails, the guard holding at every smaller value
from 2 up; the guard itself requires W < _W (when set), 2^(W+1) <= _max_size
(when set) and the strict cost improvement.  Consequently W <= _W holds
when _W >= 2 is set, and 2^W <= _max_size (not 2^(W+1)) holds when
_max_size is set and the chosen W exceeds 2. -/
theorem claimC8 (len : Nat) (Wb ms : Int) :
    2 ≤ chooseW len Wb ms ∧
    ¬ chooseW.cond len Wb ms (chooseW len Wb ms) ∧
    (∀ V, 2 ≤ V → V < chooseW len Wb ms → chooseW.cond len Wb ms V) ∧
    (Wb ≠ -1 → 2 ≤ Wb → (chooseW len Wb ms : Int) ≤ Wb) ∧
    (ms ≠ -1 → 3 ≤ chooseW len Wb ms → (2 : Int) ^ chooseW len Wb ms ≤ ms) := by
  obtain ⟨hge, hstop, hmid⟩ := chooseW_loop_spec len Wb ms (len - 2) 2 le_rfl
  refine ⟨hge, hstop, fun V h2 hlt => hmid V h2 hlt, ?_, ?_⟩
  · intro hWb hWb2
    by_cases hW2 : chooseW len Wb ms = 2
    · rw [hW2]
      omega
    · have h3 : 3 ≤ chooseW len Wb ms := by
        have : chooseW len Wb ms = chooseW.loop len Wb ms 2 := rfl
        omega
      obtain ⟨hc1, -, -⟩ := hmid (chooseW len Wb ms - 1) (by
          have : chooseW len Wb ms = chooseW.loop len Wb ms 2 := rfl
          omega) (by
          have : chooseW len Wb ms = chooseW.loop len Wb ms 2 := rfl
          omega)
      rcases hc1 with h | h
      · omega
      · exact absurd h hWb
  · intro hms h3
    obtain ⟨-, hc2, -⟩ := hmid (chooseW len Wb ms - 1) (by
        have : chooseW len Wb ms = chooseW.loop len Wb ms 2 := rfl
        omega) (by
        have : chooseW len Wb ms = chooseW.loop len Wb ms 2 := rfl
        omega)
    rcases hc2 with h | h
    · rw [show chooseW len Wb ms - 1 + 1 = chooseW len Wb ms by omega] at h
      exact h
    · exact absurd h hms

theorem claimC8_counterexample :
    chooseW 100 (-1) 8 = 3 ∧ ¬ ((2 : Int) ^ (3 + 1) ≤ 8) := by
  constructor
  · have h2 : chooseW.cond 100 (-1) 8 2 := by
      refine ⟨Or.inr rfl, Or.inl (by norm_num), ?_⟩
      rw [costGT_iff (by omega)]
      norm_num
    have h3 : ¬ chooseW.cond 100 (-1) 8 3 := by
      rintro ⟨-, h, -⟩
      rcases h with h | h
      · norm_num at h
      · exact absurd h (by norm_num)
    unfold chooseW
    rw [chooseW_loop_eq_pos h2, chooseW_loop_eq_neg h3]
  · norm_num

theorem claimC8_witness :
    2 ≤ chooseW 100 (-1) (-1) ∧
    ¬ chooseW.cond 100 (-1) (-1) (chooseW 100 (-1) (-1)) :=
  ⟨(claimC8 100 (-1) (-1)).1, (claimC8 100 (-1) (-1)).2.1⟩

/-- Claim C9 (amended to the correct value): FastExp with N = 1009,
x0 = 3 and exponent 17 produces 271, which is 129140163 mod 1009; the
value 466 stated by the specification is an arithmetic slip. -/
theorem claimC9 : FastExp.execute 1009 3 17 = 271 ∧ 129140163 % 1009 = 271 := by decide

theorem claimC9_counterexample : ¬ (FastExp.execute 1009 3 17 = 466) := by decide

/-- Claim C10: MultipointExp::execute and GerbiczCheckMultipointExp::setup
assert a non-null state (modelled as none propagating to none), while
FastExp and SlowExp treat a missing state as a fresh start from
iteration 0. -/
theorem claimC10 (N b x0 X0 e : Nat) (Wb ms : Int) (points : List Nat) :
    MultipointExp.executeOpt N b Wb ms points none = none ∧
    GerbiczCheckMultipointExp.setup none = none ∧
    FastExp.executeOpt N x0 e none = some (FastExp.execute N x0 e) ∧
    SlowExp.executeOpt N X0 e none = some (SlowExp.execute N X0 e) :=
  ⟨rfl, rfl, rfl, rfl⟩
